import Mathlib

/-!
Verification of the circlify circle-packing library (`circlify.py`).

The Python source is shallowly embedded over the real numbers:
Python floats become `ℝ`, `math.sqrt` becomes `Real.sqrt`, input weights
(dict values) become `ℚ` so that the sorting comparisons are decidable,
dicts become insertion-ordered association lists, functions that can raise
or return `None` return `Option`, and the `while` loop of `enclose` is
given explicit fuel (the loop restarts its index on every basis change, so
it is not structurally recursive).  `random.shuffle` is modelled by an
explicit reordering parameter.  Real-valued comparisons are classical.
-/

open scoped Classical

noncomputable section

namespace Circlify

open List

/-- `Circle = collections.namedtuple('Circle', ['x', 'y', 'r'])`:
an immutable value with value equality on the three fields. -/
structure Circle where
  x : ℝ
  y : ℝ
  r : ℝ

/-- The literal `1e-6` used by `enclosesWeak`. -/
def eps6 : ℝ := 1 / 1000000

/-- `sys.float_info.epsilon`, i.e. `2 ** (-52)`. -/
def floatEps : ℝ := 1 / 4503599627370496

/-- The `margin = 10.0 * sys.float_info.epsilon` of `get_placement_candidates`. -/
def margin : ℝ := 10 * floatEps

/-- `distance(circle1, circle2)`: Euclidean center distance minus both radii
(the signed gap). -/
def distance (circle1 circle2 : Circle) : ℝ :=
  Real.sqrt ((circle2.x - circle1.x) * (circle2.x - circle1.x) +
    (circle2.y - circle1.y) * (circle2.y - circle1.y)) - circle1.r - circle2.r

/-- `get_intersection(circle1, circle2)`: the 0, 1 or 2 intersection points of
two circle boundaries; the three degenerate cases return `(None, None)`. -/
def get_intersection (circle1 circle2 : Circle) :
    Option (ℝ × ℝ) × Option (ℝ × ℝ) :=
  let dx := circle2.x - circle1.x
  let dy := circle2.y - circle1.y
  let d := Real.sqrt (dx * dx + dy * dy)
  if d > circle1.r + circle2.r then (none, none)
  else if d < |circle1.r - circle2.r| then (none, none)
  else if d = 0 ∧ circle1.r = circle2.r then (none, none)
  else
    let a := (circle1.r * circle1.r - circle2.r * circle2.r + d * d) / (2 * d)
    let h := Real.sqrt (circle1.r * circle1.r - a * a)
    let xm := circle1.x + a * dx / d
    let ym := circle1.y + a * dy / d
    let xs1 := xm + h * dy / d
    let xs2 := xm - h * dy / d
    let ys1 := ym - h * dx / d
    let ys2 := ym + h * dx / d
    if xs1 = xs2 ∧ ys1 = ys2 then (some (xs1, ys1), none)
    else (some (xs1, ys1), some (xs2, ys2))

/-- `get_placement_candidates(radius, c1, c2)`: inflate `c1` and `c2` by
`radius + margin` and turn each intersection point of the inflated circles
into a candidate circle of radius `radius`. -/
def get_placement_candidates (radius : ℝ) (c1 c2 : Circle) :
    Option Circle × Option Circle :=
  let ic1 : Circle := ⟨c1.x, c1.y, c1.r + (radius + margin)⟩
  let ic2 : Circle := ⟨c2.x, c2.y, c2.r + (radius + margin)⟩
  match get_intersection ic1 ic2 with
  | (none, _) => (none, none)
  | (some i1, none) => (some ⟨i1.1, i1.2, radius⟩, none)
  | (some i1, some i2) => (some ⟨i1.1, i1.2, radius⟩, some ⟨i2.1, i2.2, radius⟩)

/-- The accumulation loop of `get_hole_degree`: `lsq` sums the Euclidean
distances from the candidate center to each placed circle's center, skipping
a placed circle equal to `pc1` or to `pc2`. -/
def holeDegreeSum (candidate : Circle) (placed_circles : List Circle)
    (pc1 pc2 : Option Circle) : ℝ :=
  placed_circles.foldl (fun lsq pc =>
    if pc1 = some pc ∨ pc2 = some pc then lsq
    else lsq + Real.sqrt ((candidate.y - pc.y) ^ 2 + (candidate.x - pc.x) ^ 2)) 0

/-- `get_hole_degree(candidate, placed_circles, pc1, pc2)`: the code returns
`-sqrt(lsq)` where `lsq` is the accumulated sum of distances. -/
def get_hole_degree (candidate : Circle) (placed_circles : List Circle)
    (pc1 pc2 : Option Circle) : ℝ :=
  -Real.sqrt (holeDegreeSum candidate placed_circles pc1 pc2)

/-- `itertools.combinations(l, 2)` in its iteration order:
`(l[0],l[1]), (l[0],l[2]), …, (l[1],l[2]), …`. -/
def pairsOf {α : Type} : List α → List (α × α)
  | [] => []
  | x :: xs => xs.map (fun y => (x, y)) ++ pairsOf xs

/-- The inner `for cand in get_placement_candidates(...)` iteration of
`pack_A1_0`, keeping only the non-`None` candidates in order. -/
def candidatesOf (radius : ℝ) (c1 c2 : Circle) : List Circle :=
  match get_placement_candidates radius c1 c2 with
  | (a, b) => a.toList ++ b.toList

/-- One step of the `mhd`/`lead_candidate` selection of `pack_A1_0`: skip a
candidate that overlaps any placed circle, otherwise score it and keep it
when its hole degree strictly improves on the best so far. -/
def stepSel (placed : List Circle) (score : Circle → Circle → Circle → ℝ)
    (st : Option ℝ × Option Circle) (t : Circle × Circle × Circle) :
    Option ℝ × Option Circle :=
  if ∃ pc ∈ placed, distance pc t.2.2 < 0 then st
  else
    let hd := score t.1 t.2.1 t.2.2
    match st.1 with
    | none => (some hd, some t.2.2)
    | some mhd => if hd > mhd then (some hd, some t.2.2) else st

/-- The stream of `(c1, c2, candidate)` triples scanned by `pack_A1_0`'s
nested loops, in iteration order. -/
def candidateTriples (radius : ℝ) (placed : List Circle) :
    List (Circle × Circle × Circle) :=
  (pairsOf placed).flatMap
    (fun cc => (candidatesOf radius cc.1 cc.2).map (fun cand => (cc.1, cc.2, cand)))

/-- The `lead_candidate` computed by the candidate-search loops of
`pack_A1_0` for one new radius against the placed circles. -/
def bestCandidate (radius : ℝ) (placed : List Circle) : Option Circle :=
  ((candidateTriples radius placed).foldl
    (stepSel placed
      (fun c1 c2 cand => get_hole_degree cand placed (some c1) (some c2)))
    (none, none)).2

/-- Stable descending insertion used to model
`sorted(data, key=data.get, reverse=True)`: the new pair goes after every
earlier pair of greater-or-equal weight and before the first one of strictly
smaller weight. -/
def insertDesc (x : String × ℚ) : List (String × ℚ) → List (String × ℚ)
  | [] => [x]
  | y :: ys => if y.2 < x.2 then x :: y :: ys else y :: insertDesc x ys

/-- `sorted(data, key=data.get, reverse=True)`: the stable sort of the input
pairs by weight, descending (Python's `sorted` is stable and `reverse=True`
keeps equal keys in their input order). -/
def sortDesc (data : List (String × ℚ)) : List (String × ℚ) :=
  data.foldl (fun acc x => insertDesc x acc) []

/-- The placement loop of `pack_A1_0` over the weight-sorted labels: the
first two circles are seeded at `(+radius, 0)` and `(-radius, 0)`; every
later circle is the best non-overlapping candidate, and when no candidate
exists the loop `break`s, returning what was placed so far. -/
def packLoop : List (String × ℚ) → List (String × Circle) → List (String × Circle)
  | [], placed => placed
  | (label, w) :: rest, placed =>
    if placed.length ≤ 1 then
      packLoop rest (placed ++ [(label,
        ⟨if placed.length = 0 then Real.sqrt (w : ℝ) else -Real.sqrt (w : ℝ), 0,
          Real.sqrt (w : ℝ)⟩)])
    else
      match bestCandidate (Real.sqrt (w : ℝ)) (placed.map Prod.snd) with
      | none => placed
      | some cand => packLoop rest (placed ++ [(label, cand)])

/-- `pack_A1_0(data)`: sort the labels by weight descending (stably) and run
the placement loop with an empty mapping; `radius = sqrt(data[label])`. -/
def pack_A1_0 (data : List (String × ℚ)) : List (String × Circle) :=
  packLoop (sortDesc data) []

/-- `enclosesNot(a, b)`. -/
def enclosesNot (a b : Circle) : Prop :=
  let dr := a.r - b.r
  let dx := b.x - a.x
  let dy := b.y - a.y
  dr < 0 ∨ dr * dr < dx * dx + dy * dy

/-- `enclosesWeak(a, b)`: containment with the `1e-6` slack. -/
def enclosesWeak (a b : Circle) : Prop :=
  let dr := a.r - b.r + eps6
  let dx := b.x - a.x
  let dy := b.y - a.y
  dr > 0 ∧ dr * dr > dx * dx + dy * dy

/-- `enclosesWeakAll(a, B)`. -/
def enclosesWeakAll (a : Circle) (B : List Circle) : Prop :=
  ∀ b ∈ B, enclosesWeak a b

/-- `encloseBasis2(a, b)`: smallest circle containing two circles. -/
def encloseBasis2 (a b : Circle) : Circle :=
  let x21 := b.x - a.x
  let y21 := b.y - a.y
  let r21 := b.r - a.r
  let l := Real.sqrt (x21 * x21 + y21 * y21)
  ⟨(a.x + b.x + x21 / l * r21) / 2,
   (a.y + b.y + y21 / l * r21) / 2,
   (l + a.r + b.r) / 2⟩

/-- `encloseBasis3(a, b, c)`: circle containing three circles, via the
radical-line linear system and the quadratic in `r`. -/
def encloseBasis3 (a b c : Circle) : Circle :=
  let a2 := a.x - b.x
  let a3 := a.x - c.x
  let b2 := a.y - b.y
  let b3 := a.y - c.y
  let c2 := b.r - a.r
  let c3 := c.r - a.r
  let d1 := a.x * a.x + a.y * a.y - a.r * a.r
  let d2 := d1 - b.x * b.x - b.y * b.y + b.r * b.r
  let d3 := d1 - c.x * c.x - c.y * c.y + c.r * c.r
  let ab := a3 * b2 - a2 * b3
  let xa := (b2 * d3 - b3 * d2) / (ab * 2) - a.x
  let xb := (b3 * c2 - b2 * c3) / ab
  let ya := (a3 * d2 - a2 * d3) / (ab * 2) - a.y
  let yb := (a2 * c3 - a3 * c2) / ab
  let A := xb * xb + yb * yb - 1
  let B := 2 * (a.r + xa * xb + ya * yb)
  let C := xa * xa + ya * ya - a.r * a.r
  let r := if A ≠ 0 then -(B + Real.sqrt (B * B - 4 * A * C)) / (2 * A) else -C / B
  ⟨a.x + xa + xb * r, a.y + ya + yb * r, r⟩

/-- `encloseBasis(B)` dispatching on the basis size; the Python code indexes
`B[0]` and so fails on an empty basis, which `enclose` never produces — the
empty case here returns a junk circle. -/
def encloseBasis : List Circle → Circle
  | [a] => a
  | [a, b] => encloseBasis2 a b
  | a :: b :: c :: _ => encloseBasis3 a b c
  | [] => ⟨0, 0, 0⟩

/-- The first `for i in range(len(B))` search of `extendBasis`, returning the
first basis member that works. -/
def extendSearch1 (p : Circle) (B : List Circle) : List Circle → Option Circle
  | [] => none
  | b :: rest =>
    if enclosesNot p b ∧ enclosesWeakAll (encloseBasis2 b p) B then some b
    else extendSearch1 p B rest

/-- The second, pairwise search of `extendBasis` over index pairs `i < j`. -/
def extendSearch2 (p : Circle) (B : List Circle) :
    List (Circle × Circle) → Option (Circle × Circle)
  | [] => none
  | bb :: rest =>
    if enclosesNot (encloseBasis2 bb.1 bb.2) p ∧
       enclosesNot (encloseBasis2 bb.1 p) bb.2 ∧
       enclosesNot (encloseBasis2 bb.2 p) bb.1 ∧
       enclosesWeakAll (encloseBasis3 bb.1 bb.2 p) B then some bb
    else extendSearch2 p B rest

/-- `extendBasis(B, p)`: try `[p]`, then `[B[i], p]`, then `[B[i], B[j], p]`;
the final `raise RuntimeError` is modelled as `none`. -/
def extendBasis (B : List Circle) (p : Circle) : Option (List Circle) :=
  if enclosesWeakAll p B then some [p]
  else
    match extendSearch1 p B B with
    | some b => some [b, p]
    | none =>
      match extendSearch2 p B (pairsOf B) with
      | some bb => some [bb.1, bb.2, p]
      | none => none

/-- The `while i < n` loop of `enclose`, with explicit fuel: advance past a
weakly enclosed circle, otherwise extend the basis, recompute `e` and restart
the scan at `i = 0`.  `none` is returned on a basis-extension failure or on
fuel exhaustion. -/
def encloseLoop (circles : List Circle) :
    Nat → List Circle → Option Circle → Nat → Option Circle
  | 0, _, _, _ => none
  | fuel + 1, B, e, i =>
    if h : i < circles.length then
      let p := circles[i]
      if ∃ ec, e = some ec ∧ enclosesWeak ec p then
        encloseLoop circles fuel B e (i + 1)
      else
        match extendBasis B p with
        | none => none
        | some B2 => encloseLoop circles fuel B2 (some (encloseBasis B2)) 0
    else e

/-- `enclose(packed_circles)`: run the scan over the shuffled list of placed
circles; `shuffle` models `random.shuffle`. -/
def enclose (packed_circles : List (String × Circle))
    (shuffle : List Circle → List Circle) (fuel : Nat) : Option Circle :=
  encloseLoop (shuffle (packed_circles.map Prod.snd)) fuel [] none 0

/-- `scale(circles, x, y, r)`: map every circle to
`((x_c - x) / r, (y_c - y) / r, r_c / r)`, keeping the labels. -/
def scale (circles : List (String × Circle)) (x y r : ℝ) :
    List (String × Circle) :=
  circles.map (fun p => (p.1, ⟨(p.2.x - x) / r, (p.2.y - y) / r, p.2.r / r⟩))

/-- Python dict assignment `d[k] = v` on an insertion-ordered association
list: replace in place when the key exists, append otherwise. -/
def dictSet (d : List (String × Circle)) (k : String) (v : Circle) :
    List (String × Circle) :=
  if k ∈ d.map Prod.fst then d.map (fun p => if p.1 = k then (k, v) else p)
  else d ++ [(k, v)]

/-- `circlify(data, with_unit=False)`: pack, enclose, scale, and optionally
set the empty-string label to the unit circle.  An empty `enclose` result
(Python: `scale(packed, *None)` raises) is `none`. -/
def circlify (data : List (String × ℚ)) (shuffle : List Circle → List Circle)
    (fuel : Nat) (with_unit : Bool) : Option (List (String × Circle)) :=
  let packed_circles := pack_A1_0 data
  match enclose packed_circles shuffle fuel with
  | none => none
  | some e =>
    let packed_and_scaled := scale packed_circles e.x e.y e.r
    some (if with_unit then dictSet packed_and_scaled "" ⟨0, 0, 1⟩
          else packed_and_scaled)

/-! ## Theorems -/

/-- `Real.sqrt 4 = 2`. -/
lemma sqrt_four : Real.sqrt 4 = 2 := by
  rw [show (4 : ℝ) = 2 ^ 2 by norm_num, Real.sqrt_sq (by norm_num)]

/-- `Real.sqrt 16 = 4`. -/
lemma sqrt_sixteen : Real.sqrt 16 = 4 := by
  rw [show (16 : ℝ) = 4 ^ 2 by norm_num, Real.sqrt_sq (by norm_num)]

/-- C5: `get_intersection` returns no solution (both components `none`)
exactly in the three degenerate cases — center distance greater than
`r1 + r2`, smaller than `|r1 - r2|`, or zero with equal radii — and (being a
total function that returns early in each degenerate case) it raises no
error there. -/
theorem get_intersection_none_iff (c1 c2 : Circle) :
    get_intersection c1 c2 = (none, none) ↔
      (Real.sqrt ((c2.x - c1.x) * (c2.x - c1.x) + (c2.y - c1.y) * (c2.y - c1.y))
          > c1.r + c2.r ∨
       Real.sqrt ((c2.x - c1.x) * (c2.x - c1.x) + (c2.y - c1.y) * (c2.y - c1.y))
          < |c1.r - c2.r| ∨
       (Real.sqrt ((c2.x - c1.x) * (c2.x - c1.x) + (c2.y - c1.y) * (c2.y - c1.y))
          = 0 ∧ c1.r = c2.r)) := by
  unfold get_intersection
  dsimp only
  split_ifs with h1 h2 h3 h4 <;> simp_all

/-- The `lsq` accumulator of `get_hole_degree` closed form: the sum of the
center-to-center Euclidean distances over the non-excluded placed circles. -/
lemma holeDegreeSum_eq (candidate : Circle) (placed : List Circle)
    (pc1 pc2 : Option Circle) :
    holeDegreeSum candidate placed pc1 pc2 =
      ((placed.filter fun pc => ¬(pc1 = some pc ∨ pc2 = some pc)).map
        fun pc => Real.sqrt ((candidate.y - pc.y) ^ 2 + (candidate.x - pc.x) ^ 2)).sum := by
  suffices h : ∀ acc : ℝ,
      placed.foldl (fun lsq pc =>
        if pc1 = some pc ∨ pc2 = some pc then lsq
        else lsq + Real.sqrt ((candidate.y - pc.y) ^ 2 + (candidate.x - pc.x) ^ 2)) acc =
      acc + ((placed.filter fun pc => ¬(pc1 = some pc ∨ pc2 = some pc)).map
        fun pc => Real.sqrt ((candidate.y - pc.y) ^ 2 + (candidate.x - pc.x) ^ 2)).sum by
    simpa [holeDegreeSum] using h 0
  induction placed with
  | nil => intro acc; simp
  | cons pc rest ih =>
    intro acc
    rw [List.foldl_cons, List.filter_cons]
    by_cases hskip : pc1 = some pc ∨ pc2 = some pc
    · rw [if_pos hskip, if_neg (by simp [hskip])]
      exact ih acc
    · rw [if_neg hskip, if_pos (by simpa using hskip), List.map_cons, List.sum_cons,
        ih (acc + Real.sqrt ((candidate.y - pc.y) ^ 2 + (candidate.x - pc.x) ^ 2)),
        add_assoc]

/-- C3 (amended): `get_hole_degree` returns the negative of the **square
root** of the sum of the Euclidean distances from the candidate's center to
the centers of the placed circles other than the two generating ones. -/
theorem get_hole_degree_neg_sqrt_sum (candidate : Circle) (placed : List Circle)
    (pc1 pc2 : Option Circle) :
    get_hole_degree candidate placed pc1 pc2 =
      -Real.sqrt (((placed.filter fun pc => ¬(pc1 = some pc ∨ pc2 = some pc)).map
        fun pc => Real.sqrt ((candidate.y - pc.y) ^ 2 + (candidate.x - pc.x) ^ 2)).sum) := by
  rw [get_hole_degree, holeDegreeSum_eq]

/-- C3 (counterexample): with placed circles at `(1,0)`, `(-1,0)`, `(0,4)`,
candidate centered at the origin and generating pair the first two placed
circles, the only counted distance is `4`, so the claimed return value is
`-4`; the code returns `-sqrt 4 = -2`. -/
theorem get_hole_degree_not_neg_sum :
    get_hole_degree ⟨0, 0, 1⟩ [⟨1, 0, 1⟩, ⟨-1, 0, 1⟩, ⟨0, 4, 1⟩]
      (some ⟨1, 0, 1⟩) (some ⟨-1, 0, 1⟩) ≠ -4 := by
  have h : holeDegreeSum ⟨0, 0, 1⟩ [⟨1, 0, 1⟩, ⟨-1, 0, 1⟩, ⟨0, 4, 1⟩]
      (some ⟨1, 0, 1⟩) (some ⟨-1, 0, 1⟩) = 4 := by
    simp only [holeDegreeSum, List.foldl, Circle.mk.injEq]
    norm_num
    exact sqrt_sixteen
  rw [get_hole_degree, h, sqrt_four]
  norm_num

/-- `insertDesc x l` is a permutation of `x :: l`. -/
lemma insertDesc_perm (x : String × ℚ) (l : List (String × ℚ)) :
    insertDesc x l ~ x :: l := by
  induction l with
  | nil => exact List.Perm.refl _
  | cons y ys ih =>
    rw [insertDesc]
    by_cases hc : y.2 < x.2
    · rw [if_pos hc]
    · rw [if_neg hc]
      exact (ih.cons y).trans (List.Perm.swap x y ys)

/-- `insertDesc` preserves the weight-descending pairwise order. -/
lemma insertDesc_sorted (x : String × ℚ) (l : List (String × ℚ))
    (h : l.Pairwise (fun a b => b.2 ≤ a.2)) :
    (insertDesc x l).Pairwise (fun a b => b.2 ≤ a.2) := by
  induction l with
  | nil => simp [insertDesc]
  | cons y ys ih =>
    rw [insertDesc]
    rcases List.pairwise_cons.mp h with ⟨hy, hys⟩
    by_cases hc : y.2 < x.2
    · rw [if_pos hc]
      refine List.Pairwise.cons ?_ h
      intro z hz
      rcases List.mem_cons.mp hz with hz | hz
      · subst hz; exact le_of_lt hc
      · exact le_trans (hy z hz) (le_of_lt hc)
    · rw [if_neg hc]
      refine List.Pairwise.cons ?_ (ih hys)
      intro z hz
      rcases List.mem_cons.mp ((insertDesc_perm x ys).mem_iff.mp hz) with hz | hz
      · subst hz; exact not_lt.mp hc
      · exact hy z hz

/-- How `insertDesc` acts on the sub-list of entries of one fixed weight:
for a weight-sorted list, an entry of weight `w` is inserted after all
existing entries of weight `w`. -/
lemma insertDesc_filter (x : String × ℚ) (l : List (String × ℚ)) (w : ℚ)
    (h : l.Pairwise (fun a b => b.2 ≤ a.2)) :
    (insertDesc x l).filter (fun p => p.2 = w) =
      if x.2 = w then l.filter (fun p => p.2 = w) ++ [x]
      else l.filter (fun p => p.2 = w) := by
  induction l with
  | nil =>
    by_cases hx : x.2 = w <;> simp [insertDesc, List.filter_cons, hx]
  | cons y ys ih =>
    rw [insertDesc]
    rcases List.pairwise_cons.mp h with ⟨hy, hys⟩
    by_cases hc : y.2 < x.2
    · rw [if_pos hc]
      by_cases hx : x.2 = w
      · have hnil : (y :: ys).filter (fun p => p.2 = w) = [] := by
          rw [List.filter_eq_nil_iff]
          intro z hz
          have hzle : z.2 ≤ y.2 := by
            rcases List.mem_cons.mp hz with hz | hz
            · exact hz ▸ le_refl _
            · exact hy z hz
          have : z.2 < w := lt_of_le_of_lt hzle (hx ▸ hc)
          simp [ne_of_lt this]
        rw [if_pos hx, hnil, List.filter_cons_of_pos (by simp [hx]), hnil]
        simp
      · rw [if_neg hx, List.filter_cons_of_neg (by simp [hx])]
    · rw [if_neg hc, List.filter_cons, List.filter_cons, ih hys]
      by_cases hx : x.2 = w <;> by_cases hyw : y.2 = w <;>
        simp [hx, hyw]

/-- The fold of `insertDesc` over the input is a permutation of the input. -/
lemma foldl_insertDesc_perm (data acc : List (String × ℚ)) :
    data.foldl (fun a x => insertDesc x a) acc ~ acc ++ data := by
  induction data generalizing acc with
  | nil => simp
  | cons x xs ih =>
    rw [List.foldl_cons]
    exact ((ih (insertDesc x acc)).trans
      (((insertDesc_perm x acc).append_right xs).trans List.perm_middle.symm))

/-- The fold of `insertDesc` keeps the accumulator weight-sorted. -/
lemma foldl_insertDesc_sorted (data acc : List (String × ℚ))
    (h : acc.Pairwise (fun a b => b.2 ≤ a.2)) :
    (data.foldl (fun a x => insertDesc x a) acc).Pairwise (fun a b => b.2 ≤ a.2) := by
  induction data generalizing acc with
  | nil => exact h
  | cons x xs ih => exact ih (insertDesc x acc) (insertDesc_sorted x acc h)

/-- The fold of `insertDesc` is stable: the entries of any fixed weight end
up behind the accumulator's, in input order. -/
lemma foldl_insertDesc_filter (data acc : List (String × ℚ)) (w : ℚ)
    (h : acc.Pairwise (fun a b => b.2 ≤ a.2)) :
    (data.foldl (fun a x => insertDesc x a) acc).filter (fun p => p.2 = w) =
      acc.filter (fun p => p.2 = w) ++ data.filter (fun p => p.2 = w) := by
  induction data generalizing acc with
  | nil => simp
  | cons x xs ih =>
    rw [List.foldl_cons, ih (insertDesc x acc) (insertDesc_sorted x acc h),
      insertDesc_filter x acc w h, List.filter_cons]
    by_cases hx : x.2 = w <;> simp [hx]

/-- The label list of `packLoop`'s output: the incoming placed labels
followed by a prefix of the to-do labels (a proper prefix exactly when the
loop gave up early). -/
lemma packLoop_keys_prefix (todo : List (String × ℚ)) (placed : List (String × Circle)) :
    ∃ n, (packLoop todo placed).map Prod.fst =
      placed.map Prod.fst ++ (todo.map Prod.fst).take n := by
  induction todo generalizing placed with
  | nil => exact ⟨0, by simp [packLoop]⟩
  | cons lw rest ih =>
    rcases lw with ⟨label, w⟩
    rw [packLoop]
    by_cases hlen : placed.length ≤ 1
    · rw [if_pos hlen]
      rcases ih (placed ++ [(label,
          ⟨if placed.length = 0 then Real.sqrt (w : ℝ) else -Real.sqrt (w : ℝ), 0,
            Real.sqrt (w : ℝ)⟩)]) with ⟨n, hn⟩
      exact ⟨n + 1, by rw [hn]; simp [List.take_succ_cons]⟩
    · rw [if_neg hlen]
      match hbc : bestCandidate (Real.sqrt (w : ℝ)) (placed.map Prod.snd) with
      | none => exact ⟨0, by simp⟩
      | some cand =>
        rcases ih (placed ++ [(label, cand)]) with ⟨n, hn⟩
        exact ⟨n + 1, by rw [hn]; simp [List.take_succ_cons]⟩

/-- C7: `pack_A1_0` processes the labels in the stable weight-descending
order of the input pairs: the processing order is a permutation of the
input, weight-nonincreasing, entries of equal weight keep their input
order, and the output labels are (a prefix of) the labels in that order. -/
theorem pack_processing_order (data : List (String × ℚ)) :
    sortDesc data ~ data ∧
    (sortDesc data).Pairwise (fun a b => b.2 ≤ a.2) ∧
    (∀ w : ℚ, (sortDesc data).filter (fun p => p.2 = w) =
      data.filter (fun p => p.2 = w)) ∧
    ∃ n, (pack_A1_0 data).map Prod.fst = ((sortDesc data).map Prod.fst).take n := by
  refine ⟨by simpa using foldl_insertDesc_perm data [],
    foldl_insertDesc_sorted data [] (by simp),
    fun w => by simpa using foldl_insertDesc_filter data [] w (by simp),
    by simpa using packLoop_keys_prefix (sortDesc data) []⟩

/-- Any property that holds of every non-overlapping candidate in the
scanned stream, and of the incoming lead candidate, holds of the lead
candidate selected by the `mhd`-fold of `pack_A1_0`. -/
lemma foldl_stepSel_prop (placed : List Circle) (score : Circle → Circle → Circle → ℝ)
    (P : Circle → Prop) :
    ∀ (ts : List (Circle × Circle × Circle)) (st : Option ℝ × Option Circle),
      (∀ t ∈ ts, ¬(∃ pc ∈ placed, distance pc t.2.2 < 0) → P t.2.2) →
      (∀ c, st.2 = some c → P c) →
      ∀ c, (ts.foldl (stepSel placed score) st).2 = some c → P c := by
  intro ts
  induction ts with
  | nil => intro st _ hst c hc; exact hst c hc
  | cons t ts ih =>
    intro st hts hst c hc
    rw [List.foldl_cons] at hc
    refine ih (stepSel placed score st t)
      (fun u hu => hts u (List.mem_cons_of_mem _ hu)) ?_ c hc
    obtain ⟨st1, st2⟩ := st
    intro c' hc'
    by_cases hov : ∃ pc ∈ placed, distance pc t.2.2 < 0
    · rw [stepSel, if_pos hov] at hc'
      exact hst c' hc'
    · have hP : P t.2.2 := hts t (List.mem_cons_self t ts) hov
      rw [stepSel, if_neg hov] at hc'
      cases st1 with
      | none =>
        dsimp at hc'
        rw [Option.some.injEq] at hc'
        exact hc' ▸ hP
      | some mhd =>
        dsimp at hc'
        by_cases hgt : score t.1 t.2.1 t.2.2 > mhd
        · rw [if_pos hgt] at hc'
          dsimp at hc'
          rw [Option.some.injEq] at hc'
          exact hc' ▸ hP
        · rw [if_neg hgt] at hc'
          exact hst c' hc'

/-- Every candidate produced by `get_placement_candidates` has the new
circle's radius. -/
lemma candidatesOf_radius (radius : ℝ) (c1 c2 c : Circle)
    (h : c ∈ candidatesOf radius c1 c2) : c.r = radius := by
  unfold candidatesOf get_placement_candidates at h
  dsimp only at h
  rcases hgi : get_intersection ⟨c1.x, c1.y, c1.r + (radius + margin)⟩
      ⟨c2.x, c2.y, c2.r + (radius + margin)⟩ with ⟨o1, o2⟩
  rw [hgi] at h
  rcases o1 with _ | i1 <;> rcases o2 with _ | i2 <;> simp_all
  rcases h with h | h <;> simp_all

/-- Every triple in the candidate stream carries a candidate of the new
radius. -/
lemma candidateTriples_radius (radius : ℝ) (placed : List Circle) :
    ∀ t ∈ candidateTriples radius placed, t.2.2.r = radius := by
  intro t ht
  rcases List.mem_flatMap.mp ht with ⟨cc, _, hmem⟩
  rcases List.mem_map.mp hmem with ⟨cand, hcand, rfl⟩
  exact candidatesOf_radius radius cc.1 cc.2 cand hcand

/-- The selected `lead_candidate` has the requested radius and a
non-negative signed gap to every placed circle (it survived the overlap
filter). -/
lemma bestCandidate_spec (radius : ℝ) (placed : List Circle) (cand : Circle)
    (h : bestCandidate radius placed = some cand) :
    cand.r = radius ∧ ∀ pc ∈ placed, 0 ≤ distance pc cand := by
  constructor
  · exact foldl_stepSel_prop placed _ (fun c => c.r = radius)
      (candidateTriples radius placed) (none, none)
      (fun t ht _ => candidateTriples_radius radius placed t ht)
      (fun c hc => by simp at hc) cand h
  · exact foldl_stepSel_prop placed _ (fun c => ∀ pc ∈ placed, 0 ≤ distance pc c)
      (candidateTriples radius placed) (none, none)
      (fun t _ hov pc hpc => by
        push_neg at hov
        exact hov pc hpc)
      (fun c hc => by simp at hc) cand h

/-- The two seed circles `(+r1, 0, r1)` and `(-r2, 0, r2)` are exactly
tangent: their signed gap is `0`. -/
lemma seed_tangent (r1 r2 : ℝ) (h1 : 0 ≤ r1) (h2 : 0 ≤ r2) :
    distance ⟨r1, 0, r1⟩ ⟨-r2, 0, r2⟩ = 0 := by
  unfold distance
  dsimp only
  rw [show (-r2 - r1) * (-r2 - r1) + ((0 : ℝ) - 0) * ((0 : ℝ) - 0) = (r1 + r2) ^ 2
    by ring, Real.sqrt_sq (add_nonneg h1 h2)]
  ring

/-- The placement loop preserves the pairwise no-overlap invariant (the
second hypothesis records that a singleton mapping is the first seed). -/
lemma packLoop_pairwise (todo : List (String × ℚ)) :
    ∀ placed : List (String × Circle),
      placed.Pairwise (fun p q => 0 ≤ distance p.2 q.2) →
      (placed.length = 1 →
        ∃ l r, 0 ≤ r ∧ placed = [(l, ⟨r, 0, r⟩)]) →
      (packLoop todo placed).Pairwise (fun p q => 0 ≤ distance p.2 q.2) := by
  induction todo with
  | nil => intro placed hpw _; exact hpw
  | cons lw rest ih =>
    rcases lw with ⟨label, w⟩
    intro placed hpw hseed
    rw [packLoop]
    by_cases hlen : placed.length ≤ 1
    · rw [if_pos hlen]
      refine ih _ ?_ ?_
      · rw [List.pairwise_append]
        refine ⟨hpw, List.pairwise_singleton _ _, ?_⟩
        intro p hp q hq
        rw [List.mem_singleton] at hq
        subst hq
        by_cases h0 : placed.length = 0
        · rw [List.length_eq_zero] at h0
          subst h0
          simp at hp
        · have h1 : placed.length = 1 := by omega
          rcases hseed h1 with ⟨l0, r0, hr0, hpl⟩
          subst hpl
          rw [List.mem_singleton] at hp
          subst hp
          rw [if_neg h0]
          exact le_of_eq (seed_tangent r0 (Real.sqrt (w : ℝ)) hr0
            (Real.sqrt_nonneg _)).symm
      · intro hlen1
        rw [List.length_append, List.length_singleton] at hlen1
        have h0 : placed.length = 0 := by omega
        rw [List.length_eq_zero] at h0
        subst h0
        exact ⟨label, Real.sqrt (w : ℝ), Real.sqrt_nonneg _, by simp⟩
    · rw [if_neg hlen]
      rcases hbc : bestCandidate (Real.sqrt (w : ℝ)) (placed.map Prod.snd) with _ | cand
      · exact hpw
      · refine ih _ ?_ ?_
        · rw [List.pairwise_append]
          refine ⟨hpw, List.pairwise_singleton _ _, ?_⟩
          intro p hp q hq
          rw [List.mem_singleton] at hq
          subst hq
          exact (bestCandidate_spec _ _ _ hbc).2 p.2 (List.mem_map_of_mem Prod.snd hp)
        · intro hlen1
          rw [List.length_append, List.length_singleton] at hlen1
          omega

/-- C2: no two circles of `pack_A1_0`'s output overlap — every pair has a
non-negative signed gap `distance` (center distance minus the two radii) —
and the two seed circles are exactly tangent.  The invariant holds because
the seeds are tangent and `bestCandidate` discards every candidate whose
signed gap to any placed circle is negative (`bestCandidate_spec`). -/
theorem pack_no_overlap (data : List (String × ℚ)) :
    (pack_A1_0 data).Pairwise (fun p q => 0 ≤ distance p.2 q.2) ∧
    (∀ r1 r2 : ℝ, 0 ≤ r1 → 0 ≤ r2 →
      distance ⟨r1, 0, r1⟩ ⟨-r2, 0, r2⟩ = 0) := by
  exact ⟨packLoop_pairwise (sortDesc data) [] (List.Pairwise.nil) (by simp),
    seed_tangent⟩

/-- C2 witness: the theorem applied to a concrete two-label input and the
concrete seed radii `1`, `1`. -/
theorem pack_no_overlap_witness :
    (pack_A1_0 [("a", (1 : ℚ)), ("b", (1 : ℚ))]).Pairwise
      (fun p q => 0 ≤ distance p.2 q.2) ∧
    distance ⟨1, 0, 1⟩ ⟨-1, 0, 1⟩ = 0 :=
  ⟨(pack_no_overlap [("a", 1), ("b", 1)]).1,
    (pack_no_overlap [("a", 1), ("b", 1)]).2 1 1 (by norm_num) (by norm_num)⟩

/-- `packLoop` only appends: its output extends the incoming mapping. -/
lemma packLoop_prefix (todo : List (String × ℚ)) :
    ∀ placed : List (String × Circle), ∃ t, packLoop todo placed = placed ++ t := by
  induction todo with
  | nil => exact fun placed => ⟨[], by simp [packLoop]⟩
  | cons lw rest ih =>
    rcases lw with ⟨label, w⟩
    intro placed
    rw [packLoop]
    by_cases hlen : placed.length ≤ 1
    · rw [if_pos hlen]
      rcases ih (placed ++ [(label,
          ⟨if placed.length = 0 then Real.sqrt (w : ℝ) else -Real.sqrt (w : ℝ), 0,
            Real.sqrt (w : ℝ)⟩)]) with ⟨t, ht⟩
      exact ⟨[(label,
          ⟨if placed.length = 0 then Real.sqrt (w : ℝ) else -Real.sqrt (w : ℝ), 0,
            Real.sqrt (w : ℝ)⟩)] ++ t, by rw [ht, List.append_assoc]⟩
    · rw [if_neg hlen]
      rcases hbc : bestCandidate (Real.sqrt (w : ℝ)) (placed.map Prod.snd) with _ | cand
      · exact ⟨[], by simp⟩
      · dsimp only
        rcases ih (placed ++ [(label, cand)]) with ⟨t, ht⟩
        exact ⟨[(label, cand)] ++ t, by rw [ht, List.append_assoc]⟩

/-- Every entry the placement loop adds has the radius `sqrt(weight)` of
some to-do pair with its label. -/
lemma packLoop_entries (todo : List (String × ℚ)) :
    ∀ placed : List (String × Circle), ∀ lc ∈ packLoop todo placed,
      lc ∈ placed ∨ ∃ w : ℚ, (lc.1, w) ∈ todo ∧ lc.2.r = Real.sqrt (w : ℝ) := by
  induction todo with
  | nil => intro placed lc hlc; exact Or.inl hlc
  | cons lw rest ih =>
    rcases lw with ⟨label, w⟩
    intro placed lc hlc
    rw [packLoop] at hlc
    by_cases hlen : placed.length ≤ 1
    · rw [if_pos hlen] at hlc
      rcases ih _ lc hlc with hpl | ⟨w', hw', hr⟩
      · rcases List.mem_append.mp hpl with hpl | hpl
        · exact Or.inl hpl
        · rw [List.mem_singleton] at hpl
          subst hpl
          exact Or.inr ⟨w, List.mem_cons_self _ _, rfl⟩
      · exact Or.inr ⟨w', List.mem_cons_of_mem _ hw', hr⟩
    · rw [if_neg hlen] at hlc
      rcases hbc : bestCandidate (Real.sqrt (w : ℝ)) (placed.map Prod.snd) with _ | cand
      · rw [hbc] at hlc
        exact Or.inl hlc
      · rw [hbc] at hlc
        rcases ih _ lc hlc with hpl | ⟨w', hw', hr⟩
        · rcases List.mem_append.mp hpl with hpl | hpl
          · exact Or.inl hpl
          · rw [List.mem_singleton] at hpl
            subst hpl
            exact Or.inr ⟨w, List.mem_cons_self _ _,
              (bestCandidate_spec _ _ _ hbc).1⟩
        · exact Or.inr ⟨w', List.mem_cons_of_mem _ hw', hr⟩

/-- In an association list with `Nodup` keys, a key determines its value. -/
lemma nodup_keys_unique (l : List (String × ℚ)) (h : (l.map Prod.fst).Nodup)
    (k : String) (a b : ℚ) (ha : (k, a) ∈ l) (hb : (k, b) ∈ l) : a = b := by
  induction l with
  | nil => simp at ha
  | cons x xs ih =>
    rw [List.map_cons, List.nodup_cons] at h
    rcases List.mem_cons.mp ha with ha' | ha' <;> rcases List.mem_cons.mp hb with hb' | hb'
    · rw [← ha'] at hb'; exact (Prod.mk.injEq _ _ _ _ ▸ hb').2.symm
    · exact absurd (List.mem_map_of_mem Prod.fst hb') (by rw [← ha'] at h; exact h.1)
    · exact absurd (List.mem_map_of_mem Prod.fst ha') (by rw [← hb'] at h; exact h.1)
    · exact ih h.2 ha' hb'

/-- C8: for an input of at least two labels (with distinct labels), the two
largest-weight labels are seeded first: the first placed circle is
`(+sqrt w1, 0, sqrt w1)` for the maximal weight `w1` and the second is
`(-sqrt w2, 0, sqrt w2)`; and every placed circle's radius is the square
root of its label's weight. -/
theorem pack_seed_positions (data : List (String × ℚ)) (h2 : 2 ≤ data.length)
    (hnd : (data.map Prod.fst).Nodup) :
    ∃ l1 w1 l2 w2 rest t,
      sortDesc data = (l1, w1) :: (l2, w2) :: rest ∧
      pack_A1_0 data =
        (l1, ⟨Real.sqrt (w1 : ℝ), 0, Real.sqrt (w1 : ℝ)⟩) ::
        (l2, ⟨-Real.sqrt (w2 : ℝ), 0, Real.sqrt (w2 : ℝ)⟩) :: t ∧
      (∀ lw ∈ data, lw.2 ≤ w1) ∧
      (∀ lc ∈ pack_A1_0 data, ∀ w : ℚ, (lc.1, w) ∈ data →
        lc.2.r = Real.sqrt (w : ℝ)) := by
  have hperm : sortDesc data ~ data := by simpa using foldl_insertDesc_perm data []
  have hlen : 2 ≤ (sortDesc data).length := hperm.length_eq ▸ h2
  rcases hsd : sortDesc data with _ | ⟨⟨l1, w1⟩, _ | ⟨⟨l2, w2⟩, rest⟩⟩
  · rw [hsd] at hlen; simp at hlen
  · rw [hsd] at hlen; simp at hlen
  · have hsorted := foldl_insertDesc_sorted data [] (by simp)
    rw [show data.foldl (fun a x => insertDesc x a) [] = sortDesc data from rfl,
      hsd] at hsorted
    have hpack : ∃ t, pack_A1_0 data =
        (l1, ⟨Real.sqrt (w1 : ℝ), 0, Real.sqrt (w1 : ℝ)⟩) ::
        (l2, ⟨-Real.sqrt (w2 : ℝ), 0, Real.sqrt (w2 : ℝ)⟩) :: t := by
      have hstep : pack_A1_0 data = packLoop rest
          [(l1, ⟨Real.sqrt (w1 : ℝ), 0, Real.sqrt (w1 : ℝ)⟩),
           (l2, ⟨-Real.sqrt (w2 : ℝ), 0, Real.sqrt (w2 : ℝ)⟩)] := by
        rw [pack_A1_0, hsd, packLoop, if_pos (by simp), packLoop, if_pos (by simp)]
        norm_num
      rcases packLoop_prefix rest
          [(l1, ⟨Real.sqrt (w1 : ℝ), 0, Real.sqrt (w1 : ℝ)⟩),
           (l2, ⟨-Real.sqrt (w2 : ℝ), 0, Real.sqrt (w2 : ℝ)⟩)] with ⟨t, ht⟩
      exact ⟨t, by rw [hstep, ht]; rfl⟩
    rcases hpack with ⟨t, ht⟩
    refine ⟨l1, w1, l2, w2, rest, t, rfl, ht, ?_, ?_⟩
    · intro lw hlw
      have : lw ∈ sortDesc data := hperm.mem_iff.mpr hlw
      rw [hsd] at this
      rcases List.mem_cons.mp this with hh | hh
      · subst hh; exact le_refl _
      · exact (List.pairwise_cons.mp hsorted).1 lw hh
    · intro lc hlc w hw
      rcases packLoop_entries (sortDesc data) [] lc (by rwa [pack_A1_0] at hlc)
          with hpl | ⟨w', hw', hr⟩
      · simp at hpl
      · have : (lc.1, w') ∈ data := hperm.mem_iff.mp hw'
        rw [nodup_keys_unique data hnd lc.1 w w' hw this]
        exact hr

/-- C8 witness: the theorem applied to the concrete input
`{a: 4, b: 1}`. -/
theorem pack_seed_positions_witness :
    ∃ l1 w1 l2 w2 rest t,
      sortDesc [("a", (4 : ℚ)), ("b", (1 : ℚ))] = (l1, w1) :: (l2, w2) :: rest ∧
      pack_A1_0 [("a", (4 : ℚ)), ("b", (1 : ℚ))] =
        (l1, ⟨Real.sqrt (w1 : ℝ), 0, Real.sqrt (w1 : ℝ)⟩) ::
        (l2, ⟨-Real.sqrt (w2 : ℝ), 0, Real.sqrt (w2 : ℝ)⟩) :: t ∧
      (∀ lw ∈ ([("a", (4 : ℚ)), ("b", (1 : ℚ))] : List (String × ℚ)), lw.2 ≤ w1) ∧
      (∀ lc ∈ pack_A1_0 [("a", (4 : ℚ)), ("b", (1 : ℚ))], ∀ w : ℚ,
        (lc.1, w) ∈ ([("a", (4 : ℚ)), ("b", (1 : ℚ))] : List (String × ℚ)) →
        lc.2.r = Real.sqrt (w : ℝ)) :=
  pack_seed_positions [("a", 4), ("b", 1)] (by norm_num) (by simp)

/-- C6: when the candidate search finds nothing for the current label (and
at least two circles are placed, so the search really ran), the loop stops:
the current label and all remaining labels are dropped and the mapping
placed so far is returned unchanged, so the output has strictly fewer
entries than placed-plus-remaining input. -/
theorem pack_gives_up (label : String) (w : ℚ) (rest : List (String × ℚ))
    (placed : List (String × Circle)) (h2 : 2 ≤ placed.length)
    (hnone : bestCandidate (Real.sqrt (w : ℝ)) (placed.map Prod.snd) = none) :
    packLoop ((label, w) :: rest) placed = placed ∧
    (packLoop ((label, w) :: rest) placed).length <
      placed.length + ((label, w) :: rest).length := by
  have heq : packLoop ((label, w) :: rest) placed = placed := by
    rw [packLoop, if_neg (by omega), hnone]
  refine ⟨heq, ?_⟩
  rw [heq, List.length_cons]
  omega

/-- Two coincident zero-radius circles inflated by a zero new radius are
coincident with equal radii, so `get_intersection` finds no solution. -/
lemma gpc_zero : get_placement_candidates 0 ⟨0, 0, 0⟩ ⟨0, 0, 0⟩ = (none, none) := by
  unfold get_placement_candidates get_intersection
  dsimp only
  rw [if_neg (by norm_num [margin, floatEps]), if_neg (by norm_num),
    if_pos (by norm_num)]

/-- With only the two coincident zero-radius circles placed, the candidate
search of `pack_A1_0` finds no candidate for a zero-weight label. -/
lemma bestCandidate_zero_none :
    bestCandidate (Real.sqrt ((0 : ℚ) : ℝ)) [⟨0, 0, 0⟩, ⟨0, 0, 0⟩] = none := by
  have h0 : Real.sqrt ((0 : ℚ) : ℝ) = 0 := by
    rw [show ((0 : ℚ) : ℝ) = 0 by norm_num, Real.sqrt_zero]
  have hco : candidatesOf 0 ⟨0, 0, 0⟩ ⟨0, 0, 0⟩ = [] := by
    simp [candidatesOf, gpc_zero]
  have hct : candidateTriples 0 [⟨0, 0, 0⟩, ⟨0, 0, 0⟩] = [] := by
    rw [candidateTriples,
      show pairsOf [(⟨0, 0, 0⟩ : Circle), ⟨0, 0, 0⟩] = [(⟨0, 0, 0⟩, ⟨0, 0, 0⟩)] from rfl]
    simp [hco]
  rw [h0, bestCandidate, hct]
  rfl

/-- C6 witness: with the two degenerate zero-radius circles placed, the
zero-weight label `c` cannot be placed, the loop returns the two placed
entries unchanged, and the output is smaller than the input. -/
theorem pack_gives_up_witness :
    packLoop [("c", (0 : ℚ))] [("a", ⟨0, 0, 0⟩), ("b", ⟨0, 0, 0⟩)] =
      [("a", ⟨0, 0, 0⟩), ("b", ⟨0, 0, 0⟩)] ∧
    (packLoop [("c", (0 : ℚ))] [("a", ⟨0, 0, 0⟩), ("b", ⟨0, 0, 0⟩)]).length <
      ([("a", (⟨0, 0, 0⟩ : Circle)), ("b", ⟨0, 0, 0⟩)]).length +
      ([("c", (0 : ℚ))]).length :=
  pack_gives_up "c" 0 [] [("a", ⟨0, 0, 0⟩), ("b", ⟨0, 0, 0⟩)] (by norm_num)
    (by simpa using bestCandidate_zero_none)

/-- Modelled from the spec: the selection fold of `pack_A1_0` rescored with
the negated plain sum of distances `-Σ d_i` instead of the code's
`-sqrt(Σ d_i)`, everything else (stream, overlap filter, strict-improvement
update) unchanged. -/
def bestCandidateAlt (radius : ℝ) (placed : List Circle) : Option Circle :=
  ((candidateTriples radius placed).foldl
    (stepSel placed
      (fun c1 c2 cand => -(holeDegreeSum cand placed (some c1) (some c2))))
    (none, none)).2

/-- The accumulated distance sum is non-negative. -/
lemma holeDegreeSum_nonneg (candidate : Circle) (placed : List Circle)
    (pc1 pc2 : Option Circle) : 0 ≤ holeDegreeSum candidate placed pc1 pc2 := by
  rw [holeDegreeSum_eq]
  apply List.sum_nonneg
  intro x hx
  rcases List.mem_map.mp hx with ⟨pc, _, rfl⟩
  exact Real.sqrt_nonneg _

/-- Correspondence between a selection state of the real fold and one of the
rescored fold: same lead candidate, and the remembered best scores are
`-sqrt s` and `-s` for one common non-negative sum `s`. -/
def selRel (u v : Option ℝ × Option Circle) : Prop :=
  u.2 = v.2 ∧ ((u.1 = none ∧ v.1 = none) ∨
    ∃ s, 0 ≤ s ∧ u.1 = some (-Real.sqrt s) ∧ v.1 = some (-s))

/-- One selection step preserves the correspondence: since
`x ↦ -sqrt x` and `x ↦ -x` are both strictly decreasing on `[0, ∞)`, the
two scorings make identical improve-or-keep decisions. -/
lemma stepSel_refine (placed : List Circle) (t : Circle × Circle × Circle)
    (u v : Option ℝ × Option Circle) (h : selRel u v) :
    selRel
      (stepSel placed
        (fun c1 c2 cand => get_hole_degree cand placed (some c1) (some c2)) u t)
      (stepSel placed
        (fun c1 c2 cand => -(holeDegreeSum cand placed (some c1) (some c2))) v t) := by
  obtain ⟨u1, u2⟩ := u
  obtain ⟨v1, v2⟩ := v
  obtain ⟨h2, h1⟩ := h
  dsimp at h2
  subst h2
  by_cases hov : ∃ pc ∈ placed, distance pc t.2.2 < 0
  · rw [stepSel, if_pos hov, stepSel, if_pos hov]
    exact ⟨rfl, h1⟩
  · have hS0 : 0 ≤ holeDegreeSum t.2.2 placed (some t.1) (some t.2.1) :=
      holeDegreeSum_nonneg _ _ _ _
    rw [stepSel, if_neg hov, stepSel, if_neg hov]
    rcases h1 with ⟨h1a, h1b⟩ | ⟨s, hs0, h1a, h1b⟩
    · dsimp at h1a h1b
      subst h1a
      subst h1b
      exact ⟨rfl, Or.inr ⟨holeDegreeSum t.2.2 placed (some t.1) (some t.2.1),
        hS0, rfl, rfl⟩⟩
    · dsimp at h1a h1b
      subst h1a
      subst h1b
      dsimp only
      have hiff : (get_hole_degree t.2.2 placed (some t.1) (some t.2.1) >
          -Real.sqrt s) ↔
          (-(holeDegreeSum t.2.2 placed (some t.1) (some t.2.1)) > -s) := by
        rw [get_hole_degree, gt_iff_lt, gt_iff_lt, neg_lt_neg_iff, neg_lt_neg_iff,
          Real.sqrt_lt_sqrt_iff hS0]
      by_cases hgt : -(holeDegreeSum t.2.2 placed (some t.1) (some t.2.1)) > -s
      · rw [if_pos (hiff.mpr hgt), if_pos hgt]
        exact ⟨rfl, Or.inr ⟨holeDegreeSum t.2.2 placed (some t.1) (some t.2.1),
          hS0, rfl, rfl⟩⟩
      · rw [if_neg (fun hc => hgt (hiff.mp hc)), if_neg hgt]
        exact ⟨rfl, Or.inr ⟨s, hs0, rfl, rfl⟩⟩

/-- The whole selection fold preserves the correspondence. -/
lemma foldl_stepSel_refine (placed : List Circle)
    (ts : List (Circle × Circle × Circle)) :
    ∀ u v : Option ℝ × Option Circle, selRel u v →
      selRel
        (ts.foldl (stepSel placed
          (fun c1 c2 cand => get_hole_degree cand placed (some c1) (some c2))) u)
        (ts.foldl (stepSel placed
          (fun c1 c2 cand => -(holeDegreeSum cand placed (some c1) (some c2)))) v) := by
  induction ts with
  | nil => intro u v h; exact h
  | cons t ts ih =>
    intro u v h
    rw [List.foldl_cons, List.foldl_cons]
    exact ih _ _ (stepSel_refine placed t u v h)

/-- C10: the candidate selected with the code's score `-sqrt(Σ distances)`
is the candidate selected with the spec-shaped score `-Σ distances`,
including tie-breaking (both keep the first-encountered maximum, since both
use the same strict-improvement test). -/
theorem bestCandidate_score_refinement (radius : ℝ) (placed : List Circle) :
    bestCandidate radius placed = bestCandidateAlt radius placed := by
  rw [bestCandidate, bestCandidateAlt]
  exact (foldl_stepSel_refine placed (candidateTriples radius placed)
    (none, none) (none, none) ⟨rfl, Or.inl ⟨rfl, rfl⟩⟩).1

/-- Loop invariant of `enclose`: every circle strictly before the scan
index is weakly enclosed by the current enclosing circle, so a normal
termination (the index reaches the end) returns a circle that weakly
encloses the whole sequence. -/
lemma encloseLoop_invariant (circles : List Circle) :
    ∀ (fuel : Nat) (B : List Circle) (e : Option Circle) (i : Nat),
      (∀ ec, e = some ec → ∀ j, (hj : j < circles.length) → j < i →
        enclosesWeak ec circles[j]) →
      ∀ ef, encloseLoop circles fuel B e i = some ef →
        ∀ p ∈ circles, enclosesWeak ef p := by
  intro fuel
  induction fuel with
  | zero =>
    intro B e i _ ef hef
    rw [encloseLoop] at hef
    exact absurd hef (by simp)
  | succ fuel ih =>
    intro B e i hinv ef hef
    rw [encloseLoop] at hef
    by_cases hlt : i < circles.length
    · rw [dif_pos hlt] at hef
      by_cases hw : ∃ ec, e = some ec ∧ enclosesWeak ec circles[i]
      · rw [if_pos hw] at hef
        refine ih B e (i + 1) ?_ ef hef
        intro ec hec j hj hji
        rcases Nat.lt_succ_iff_lt_or_eq.mp hji with hji | hji
        · exact hinv ec hec j hj hji
        · rcases hw with ⟨ec', hec', hwec⟩
          rw [hec] at hec'
          subst hji
          exact (Option.some.injEq _ _ ▸ hec') ▸ hwec
      · rw [if_neg hw] at hef
        rcases hx : extendBasis B circles[i] with _ | B2
        · rw [hx] at hef
          exact absurd hef (by simp)
        · rw [hx] at hef
          refine ih B2 (some (encloseBasis B2)) 0 ?_ ef hef
          intro ec hec j hj hji
          omega
    · rw [dif_neg hlt] at hef
      intro p hp
      rcases List.mem_iff_getElem.mp hp with ⟨j, hj, rfl⟩
      exact hinv ef hef j hj (by omega)

/-- C1: whatever circle `enclose` returns (it terminates only after a full
pass of weak-enclosure checks) weakly encloses every placed circle:
for each circle `c`, `distance(center e, center c) + r c ≤ r e + 1e-6`. -/
theorem enclose_encloses (packed : List (String × Circle))
    (shuffle : List Circle → List Circle) (fuel : Nat) (e : Circle)
    (hperm : shuffle (packed.map Prod.snd) ~ packed.map Prod.snd)
    (henc : enclose packed shuffle fuel = some e) :
    ∀ lc ∈ packed, enclosesWeak e lc.2 ∧
      Real.sqrt ((lc.2.x - e.x) * (lc.2.x - e.x) +
        (lc.2.y - e.y) * (lc.2.y - e.y)) + lc.2.r ≤ e.r + eps6 := by
  intro lc hlc
  have hmem : lc.2 ∈ shuffle (packed.map Prod.snd) :=
    hperm.mem_iff.mpr (List.mem_map_of_mem Prod.snd hlc)
  have hweak : enclosesWeak e lc.2 :=
    encloseLoop_invariant _ fuel [] none 0 (by simp) e henc lc.2 hmem
  refine ⟨hweak, ?_⟩
  obtain ⟨hdr, hsq⟩ := hweak
  have h1 : Real.sqrt ((lc.2.x - e.x) * (lc.2.x - e.x) +
      (lc.2.y - e.y) * (lc.2.y - e.y)) < e.r - lc.2.r + eps6 := by
    rw [Real.sqrt_lt' hdr]
    nlinarith [hsq]
  linarith

/-- `enclose` on the single unit circle: one basis extension, then a full
pass, returning the circle itself. -/
lemma enclose_single :
    enclose [("a", ⟨0, 0, 1⟩)] id 5 = some ⟨0, 0, 1⟩ := by
  have hweak : enclosesWeak ⟨0, 0, 1⟩ ⟨0, 0, 1⟩ := by
    constructor <;> norm_num [eps6]
  rw [enclose]
  show encloseLoop [⟨0, 0, 1⟩] 5 [] none 0 = some ⟨0, 0, 1⟩
  rw [show (5 : ℕ) = 4 + 1 from rfl, encloseLoop]
  rw [dif_pos (by simp : (0 : ℕ) < List.length [(⟨0, 0, 1⟩ : Circle)])]
  simp only [List.getElem_cons_zero]
  rw [if_neg (by simp)]
  rw [show extendBasis [] ⟨0, 0, 1⟩ = some [⟨0, 0, 1⟩] by
    rw [extendBasis, if_pos (by simp [enclosesWeakAll])]]
  show encloseLoop [⟨0, 0, 1⟩] 4 [⟨0, 0, 1⟩] (some (encloseBasis [⟨0, 0, 1⟩])) 0 =
    some ⟨0, 0, 1⟩
  rw [show encloseBasis [(⟨0, 0, 1⟩ : Circle)] = ⟨0, 0, 1⟩ from rfl]
  rw [show (4 : ℕ) = 3 + 1 from rfl, encloseLoop]
  rw [dif_pos (by simp : (0 : ℕ) < List.length [(⟨0, 0, 1⟩ : Circle)])]
  simp only [List.getElem_cons_zero]
  rw [if_pos ⟨⟨0, 0, 1⟩, rfl, hweak⟩]
  rw [show (3 : ℕ) = 2 + 1 from rfl, encloseLoop]
  rw [dif_neg (by simp)]

/-- C1 witness: the theorem applied to the singleton mapping of the unit
circle, whose enclosure is the unit circle itself. -/
theorem enclose_encloses_witness :
    enclosesWeak ⟨0, 0, 1⟩ ⟨0, 0, 1⟩ ∧
    Real.sqrt (((0 : ℝ) - 0) * ((0 : ℝ) - 0) + ((0 : ℝ) - 0) * ((0 : ℝ) - 0)) + 1 ≤
      1 + eps6 :=
  enclose_encloses [("a", ⟨0, 0, 1⟩)] id 5 ⟨0, 0, 1⟩ (List.Perm.refl _)
    enclose_single ("a", ⟨0, 0, 1⟩) (List.mem_singleton.mpr rfl)

/-- Packing `{a: 1, b: 0}`: two seed circles, radius `sqrt` of the weight;
the zero weight silently becomes a zero-radius circle. -/
lemma pack_ab :
    pack_A1_0 [("a", 1), ("b", 0)] = [("a", ⟨1, 0, 1⟩), ("b", ⟨0, 0, 0⟩)] := by
  have hstep : pack_A1_0 [("a", 1), ("b", 0)] =
      [("a", ⟨Real.sqrt ((1 : ℚ) : ℝ), 0, Real.sqrt ((1 : ℚ) : ℝ)⟩),
       ("b", ⟨-Real.sqrt ((0 : ℚ) : ℝ), 0, Real.sqrt ((0 : ℚ) : ℝ)⟩)] := rfl
  rw [hstep, show ((1 : ℚ) : ℝ) = 1 by norm_num, show ((0 : ℚ) : ℝ) = 0 by norm_num,
    Real.sqrt_one, Real.sqrt_zero, neg_zero]

/-- The enclosing-circle scan over `[(1,0,1), (0,0,0)]`: the first circle
becomes the basis and weakly encloses the second, so it is returned. -/
lemma encloseLoop_two :
    encloseLoop [⟨1, 0, 1⟩, ⟨0, 0, 0⟩] 10 [] none 0 = some ⟨1, 0, 1⟩ := by
  have hw1 : enclosesWeak ⟨1, 0, 1⟩ ⟨1, 0, 1⟩ := by
    constructor <;> norm_num [eps6]
  have hw2 : enclosesWeak ⟨1, 0, 1⟩ ⟨0, 0, 0⟩ := by
    constructor <;> norm_num [eps6]
  rw [show (10 : ℕ) = 9 + 1 from rfl, encloseLoop]
  rw [dif_pos (by simp : (0 : ℕ) < List.length [(⟨1, 0, 1⟩ : Circle), ⟨0, 0, 0⟩])]
  simp only [List.getElem_cons_zero]
  rw [if_neg (by simp)]
  rw [show extendBasis [] ⟨1, 0, 1⟩ = some [⟨1, 0, 1⟩] by
    rw [extendBasis, if_pos (by simp [enclosesWeakAll])]]
  show encloseLoop [⟨1, 0, 1⟩, ⟨0, 0, 0⟩] 9 [⟨1, 0, 1⟩]
    (some (encloseBasis [⟨1, 0, 1⟩])) 0 = some ⟨1, 0, 1⟩
  rw [show encloseBasis [(⟨1, 0, 1⟩ : Circle)] = ⟨1, 0, 1⟩ from rfl]
  rw [show (9 : ℕ) = 8 + 1 from rfl, encloseLoop]
  rw [dif_pos (by simp : (0 : ℕ) < List.length [(⟨1, 0, 1⟩ : Circle), ⟨0, 0, 0⟩])]
  simp only [List.getElem_cons_zero]
  rw [if_pos ⟨⟨1, 0, 1⟩, rfl, hw1⟩]
  rw [show (8 : ℕ) = 7 + 1 from rfl, encloseLoop]
  rw [dif_pos (by simp : (1 : ℕ) < List.length [(⟨1, 0, 1⟩ : Circle), ⟨0, 0, 0⟩])]
  simp only [List.getElem_cons_succ, List.getElem_cons_zero]
  rw [if_pos ⟨⟨1, 0, 1⟩, rfl, hw2⟩]
  rw [show (7 : ℕ) = 6 + 1 from rfl, encloseLoop]
  rw [dif_neg (by simp)]

/-- The enclosure of the `{a: 1, b: 0}` packing is the circle `(1, 0, 1)`. -/
lemma enclose_ab :
    enclose (pack_A1_0 [("a", 1), ("b", 0)]) id 10 = some ⟨1, 0, 1⟩ := by
  rw [pack_ab, enclose]
  exact encloseLoop_two

/-- C4 (counterexample): `circlify` on `{a: 1, b: 0}` — a mapping with a
zero weight — is not rejected with an error; it returns a mapping in which
the zero weight has silently become the zero-radius circle `(-1, 0, 0)`. -/
theorem circlify_zero_weight_passes :
    circlify [("a", 1), ("b", 0)] id 10 false =
      some [("a", ⟨0, 0, 1⟩), ("b", ⟨-1, 0, 0⟩)] ∧
    circlify [("a", 1), ("b", 0)] id 10 false ≠ none := by
  have h : circlify [("a", 1), ("b", 0)] id 10 false =
      some [("a", ⟨0, 0, 1⟩), ("b", ⟨-1, 0, 0⟩)] := by
    simp only [circlify, enclose_ab]
    rw [pack_ab]
    simp only [scale, List.map_cons, List.map_nil, Bool.false_eq_true, if_false]
    norm_num
  exact ⟨h, by rw [h]; simp⟩

/-- The scan of an empty circle list never produces an enclosing circle. -/
lemma encloseLoop_nil (fuel : Nat) :
    encloseLoop [] fuel [] none 0 = none := by
  cases fuel with
  | zero => rw [encloseLoop]
  | succ fuel => rw [encloseLoop, dif_neg (by simp)]

/-- C4 (amended): an empty input is not rejected at the entry point either —
`pack_A1_0` returns an empty mapping, `enclose` returns no circle, and
`circlify` fails downstream (Python: unpacking `None` in `scale`), modelled
as `none`. -/
theorem circlify_empty_no_result (shuffle : List Circle → List Circle)
    (fuel : Nat) (with_unit : Bool) (hnil : shuffle [] = []) :
    circlify [] shuffle fuel with_unit = none := by
  have he : enclose (pack_A1_0 []) shuffle fuel = none := by
    rw [show pack_A1_0 [] = [] from rfl, enclose]
    simp only [List.map_nil, hnil]
    exact encloseLoop_nil fuel
  simp only [circlify, he]

/-- C4 witness: the amended theorem at the identity shuffle. -/
theorem circlify_empty_no_result_witness :
    circlify [] id 7 false = none :=
  circlify_empty_no_result id 7 false rfl

/-- Packing `{a: 1, "": 0}`: the empty-string label is a legitimate input
label and receives the zero-radius seed circle. -/
lemma pack_aempty :
    pack_A1_0 [("a", 1), ("", 0)] = [("a", ⟨1, 0, 1⟩), ("", ⟨0, 0, 0⟩)] := by
  have hstep : pack_A1_0 [("a", 1), ("", 0)] =
      [("a", ⟨Real.sqrt ((1 : ℚ) : ℝ), 0, Real.sqrt ((1 : ℚ) : ℝ)⟩),
       ("", ⟨-Real.sqrt ((0 : ℚ) : ℝ), 0, Real.sqrt ((0 : ℚ) : ℝ)⟩)] := rfl
  rw [hstep, show ((1 : ℚ) : ℝ) = 1 by norm_num, show ((0 : ℚ) : ℝ) = 0 by norm_num,
    Real.sqrt_one, Real.sqrt_zero, neg_zero]

/-- The enclosure of the `{a: 1, "": 0}` packing. -/
lemma enclose_aempty :
    enclose (pack_A1_0 [("a", 1), ("", 0)]) id 10 = some ⟨1, 0, 1⟩ := by
  rw [pack_aempty, enclose]
  exact encloseLoop_two

/-- C9 (counterexample): when the input already contains the empty-string
label, `with_unit=True` does **not** add an entry: the scaled circle of
label `""` (here `(-1, 0, 0)`) is overwritten in place with `(0, 0, 1)` and
the output has exactly as many entries as with `with_unit=False`. -/
theorem circlify_unit_label_overwrite :
    circlify [("a", 1), ("", 0)] id 10 true =
      some [("a", ⟨0, 0, 1⟩), ("", ⟨0, 0, 1⟩)] ∧
    circlify [("a", 1), ("", 0)] id 10 false =
      some [("a", ⟨0, 0, 1⟩), ("", ⟨-1, 0, 0⟩)] ∧
    (circlify [("a", 1), ("", 0)] id 10 true).map List.length =
      (circlify [("a", 1), ("", 0)] id 10 false).map List.length := by
  have hscale : scale [("a", ⟨1, 0, 1⟩), ("", ⟨0, 0, 0⟩)] 1 0 1 =
      [("a", ⟨0, 0, 1⟩), ("", ⟨-1, 0, 0⟩)] := by
    simp only [scale, List.map_cons, List.map_nil]
    norm_num
  have hfalse : circlify [("a", 1), ("", 0)] id 10 false =
      some [("a", ⟨0, 0, 1⟩), ("", ⟨-1, 0, 0⟩)] := by
    simp only [circlify, enclose_aempty]
    rw [pack_aempty]
    simp only [Bool.false_eq_true, if_false]
    rw [hscale]
  have htrue : circlify [("a", 1), ("", 0)] id 10 true =
      some [("a", ⟨0, 0, 1⟩), ("", ⟨0, 0, 1⟩)] := by
    simp only [circlify, enclose_aempty]
    rw [pack_aempty]
    simp only [if_true]
    rw [hscale]
    rw [show dictSet [("a", ⟨0, 0, 1⟩), ("", ⟨-1, 0, 0⟩)] "" ⟨0, 0, 1⟩ =
      [("a", ⟨0, 0, 1⟩), ("", ⟨0, 0, 1⟩)] by
        rw [dictSet, if_pos (by simp)]
        simp]
  exact ⟨htrue, hfalse, by rw [htrue, hfalse]; rfl⟩

/-- C9 (amended): `scale` maps every placed circle `(x, y, r)` to
`((x-ex)/er, (y-ey)/er, r/er)` and keeps exactly the input keys; `circlify`
with `with_unit=False` returns exactly the scaled mapping, and with
`with_unit=True` sets the empty-string key to `(0, 0, 1)` — appending
exactly one entry when `""` is not already a placed label, and overwriting
in place (same entry count) when it is. -/
theorem scale_keys_and_unit (circles : List (String × Circle)) (x y r : ℝ)
    (data : List (String × ℚ)) (shuffle : List Circle → List Circle)
    (fuel : Nat) (e : Circle)
    (he : enclose (pack_A1_0 data) shuffle fuel = some e) :
    ((scale circles x y r).map Prod.fst = circles.map Prod.fst) ∧
    (∀ p ∈ circles, (p.1, ⟨(p.2.x - x) / r, (p.2.y - y) / r, p.2.r / r⟩) ∈
      scale circles x y r) ∧
    circlify data shuffle fuel false = some (scale (pack_A1_0 data) e.x e.y e.r) ∧
    circlify data shuffle fuel true =
      some (dictSet (scale (pack_A1_0 data) e.x e.y e.r) "" ⟨0, 0, 1⟩) ∧
    ("" ∉ (pack_A1_0 data).map Prod.fst →
      (dictSet (scale (pack_A1_0 data) e.x e.y e.r) "" ⟨0, 0, 1⟩).map Prod.fst =
        (pack_A1_0 data).map Prod.fst ++ [""]) ∧
    ("" ∈ (pack_A1_0 data).map Prod.fst →
      (dictSet (scale (pack_A1_0 data) e.x e.y e.r) "" ⟨0, 0, 1⟩).length =
        (pack_A1_0 data).length) := by
  have hkeys : ∀ (cs : List (String × Circle)) (a b c : ℝ),
      (scale cs a b c).map Prod.fst = cs.map Prod.fst := by
    intro cs a b c
    simp [scale]
  refine ⟨hkeys circles x y r, ?_, ?_, ?_, ?_, ?_⟩
  · intro p hp
    exact List.mem_map_of_mem _ hp
  · simp only [circlify, he, Bool.false_eq_true, if_false]
  · simp only [circlify, he, if_true]
  · intro h
    rw [dictSet, if_neg (by rw [hkeys]; exact h)]
    simp [hkeys _ e.x e.y e.r]
  · intro h
    rw [dictSet, if_pos (by rw [hkeys]; exact h)]
    rw [List.length_map]
    rw [show (scale (pack_A1_0 data) e.x e.y e.r).length = (pack_A1_0 data).length
      from by rw [scale, List.length_map]]

/-- C9 witness: the amended theorem at concrete inputs — a one-entry scale,
and `circlify` on `{a: 1, b: 0}`, whose labels do not contain `""`, so
`with_unit=True` appends exactly the `""` entry. -/
theorem scale_keys_and_unit_witness :
    ((scale [("c", ⟨2, 3, 4⟩)] 1 0 1).map Prod.fst = ["c"]) ∧
    circlify [("a", 1), ("b", 0)] id 10 false =
      some (scale (pack_A1_0 [("a", 1), ("b", 0)]) 1 0 1) ∧
    circlify [("a", 1), ("b", 0)] id 10 true =
      some (dictSet (scale (pack_A1_0 [("a", 1), ("b", 0)]) 1 0 1) "" ⟨0, 0, 1⟩) ∧
    (dictSet (scale (pack_A1_0 [("a", 1), ("b", 0)]) 1 0 1) "" ⟨0, 0, 1⟩).map Prod.fst =
      (pack_A1_0 [("a", 1), ("b", 0)]).map Prod.fst ++ [""] := by
  obtain ⟨h1, h2, h3, h4, h5, h6⟩ :=
    scale_keys_and_unit [("c", ⟨2, 3, 4⟩)] 1 0 1 [("a", 1), ("b", 0)] id 10
      ⟨1, 0, 1⟩ enclose_ab
  exact ⟨h1, h3, h4, h5 (by rw [pack_ab]; simp)⟩

end Circlify
